import Mathlib

/-!
Verification of the autocomplete repository's core: the trie-based prefix
index (`internal/trie/trie.go` and the second trie variant), the
read-through lookup cache, and the V1 HTTP handlers
(`internal/handlers/v1.go`).

Modelling conventions:
* A Go string ranged over with `for _, char := range word` yields runes
  (code points), so a word is modelled as `List Char`.
* Go's byte-level view of a string (`len(word)`, `word[i]`) is modelled by
  the UTF-8 byte length `byteLen` and byte list `utf8Bytes`; these matter
  because `Trie.Delete` walks by runes but prunes by byte indices.
* A Go `map[rune]*Node` is modelled as an association list
  `List (Char × Node)` with unique keys; map writes replace in place, map
  deletes remove the key, and map iteration order (unspecified in Go) is
  realised deterministically as list order.
* An operation that panics (index out of range) returns `none`.
-/

namespace Autocomplete

/-- A word, as the sequence of runes Go's `range` produces from a string. -/
abbrev Word := List Char

/-- Number of bytes in the UTF-8 encoding of one code point (Go `len` of a
one-rune string). -/
def charBytes (c : Char) : Nat :=
  if c.toNat < 0x80 then 1
  else if c.toNat < 0x800 then 2
  else if c.toNat < 0x10000 then 3
  else 4

/-- Go's `len(word)`: the byte length of the string's UTF-8 encoding. -/
def byteLen (w : Word) : Nat :=
  w.foldr (fun c n => charBytes c + n) 0

/-- ASCII fragment of Go's `strings.ToLower` on one rune. The handlers in
`v1.go` only ever case-fold words; every word appearing in the spec's
scenarios is ASCII, where `strings.ToLower` maps `'A'..'Z'` to
`'a'..'z'` and leaves other code points unchanged. -/
def lowerChar (c : Char) : Char :=
  if 'A' ≤ c ∧ c ≤ 'Z' then Char.ofNat (c.toNat + 32) else c

/-- Go's `strings.ToLower` on a word (ASCII fragment, see `lowerChar`). -/
def lowerWord (w : Word) : Word := w.map lowerChar

/-- A trie node, from `internal/trie/trie.go`:
`type Node struct { Children map[rune]*Node; IsWord bool }`.
The `children` association list models the Go map (unique keys,
deterministic stand-in for the unspecified iteration order). -/
inductive Node : Type where
  | mk : Bool → List (Char × Node) → Node
deriving Repr

/-- The `IsWord` field. -/
def Node.isWord : Node → Bool
  | .mk b _ => b

/-- The `Children` field. -/
def Node.children : Node → List (Char × Node)
  | .mk _ cs => cs

@[simp] theorem Node.isWord_mk (b : Bool) (cs : List (Char × Node)) :
    (Node.mk b cs).isWord = b := rfl

@[simp] theorem Node.children_mk (b : Bool) (cs : List (Char × Node)) :
    (Node.mk b cs).children = cs := rfl

/-- `NewNode()`: a fresh node with no children, not a word. -/
def newNode : Node := Node.mk false []

/-- Go map read `node.Children[char]`: the value stored at key `c`. -/
def lookupChild : List (Char × Node) → Char → Option Node
  | [], _ => none
  | (d, m) :: rest, c => if d = c then some m else lookupChild rest c

/-- Go map write `node.Children[char] = n`: replace the binding in place,
or append a new binding when the key is absent. -/
def updateChild : List (Char × Node) → Char → Node → List (Char × Node)
  | [], c, n => [(c, n)]
  | (d, m) :: rest, c, n =>
      if d = c then (c, n) :: rest else (d, m) :: updateChild rest c n

/-- Go map delete `delete(node.Children, char)`: remove the binding. -/
def removeChild : List (Char × Node) → Char → List (Char × Node)
  | [], _ => []
  | (d, m) :: rest, c =>
      if d = c then removeChild rest c else (d, m) :: removeChild rest c

@[simp] theorem lookupChild_nil (c : Char) : lookupChild [] c = none := rfl

theorem lookupChild_cons (d : Char) (m : Node) (rest : List (Char × Node)) (c : Char) :
    lookupChild ((d, m) :: rest) c = if d = c then some m else lookupChild rest c := rfl

@[simp] theorem lookupChild_updateChild_self (cs : List (Char × Node)) (c : Char) (n : Node) :
    lookupChild (updateChild cs c n) c = some n := by
  induction cs with
  | nil => simp [updateChild, lookupChild]
  | cons p rest ih =>
      obtain ⟨d, m⟩ := p
      by_cases h : d = c <;> simp [updateChild, lookupChild, h, ih]

theorem lookupChild_updateChild_ne (cs : List (Char × Node)) (c : Char) (n : Node)
    (e : Char) (hne : e ≠ c) :
    lookupChild (updateChild cs c n) e = lookupChild cs e := by
  induction cs with
  | nil => simp [updateChild, lookupChild, Ne.symm hne]
  | cons p rest ih =>
      obtain ⟨d, m⟩ := p
      by_cases h : d = c
      · subst h
        simp [updateChild, lookupChild, Ne.symm hne]
      · simp [updateChild, lookupChild, h, ih]

@[simp] theorem lookupChild_removeChild_self (cs : List (Char × Node)) (c : Char) :
    lookupChild (removeChild cs c) c = none := by
  induction cs with
  | nil => simp [removeChild]
  | cons p rest ih =>
      obtain ⟨d, m⟩ := p
      by_cases h : d = c <;> simp [removeChild, lookupChild, h, ih]

theorem lookupChild_removeChild_ne (cs : List (Char × Node)) (c : Char)
    (e : Char) (hne : e ≠ c) :
    lookupChild (removeChild cs c) e = lookupChild cs e := by
  induction cs with
  | nil => simp [removeChild]
  | cons p rest ih =>
      obtain ⟨d, m⟩ := p
      by_cases h : d = c
      · subst h
        simp [removeChild, lookupChild, Ne.symm hne, ih]
      · simp [removeChild, lookupChild, h, ih]

theorem updateChild_self_of_lookup (cs : List (Char × Node)) (c : Char) (n : Node)
    (h : lookupChild cs c = some n) : updateChild cs c n = cs := by
  induction cs with
  | nil => simp [lookupChild] at h
  | cons p rest ih =>
      obtain ⟨d, m⟩ := p
      by_cases hd : d = c
      · subst hd
        simp [lookupChild] at h
        simp [updateChild, h]
      · simp [lookupChild, hd] at h
        simp [updateChild, hd, ih h]

theorem updateChild_updateChild (cs : List (Char × Node)) (c : Char) (n n' : Node) :
    updateChild (updateChild cs c n) c n' = updateChild cs c n' := by
  induction cs with
  | nil => simp [updateChild]
  | cons p rest ih =>
      obtain ⟨d, m⟩ := p
      by_cases h : d = c <;> simp [updateChild, h, ih]

theorem updateChild_absent (cs : List (Char × Node)) (c : Char) (n : Node)
    (h : lookupChild cs c = none) : updateChild cs c n = cs ++ [(c, n)] := by
  induction cs with
  | nil => simp [updateChild]
  | cons p rest ih =>
      obtain ⟨d, m⟩ := p
      by_cases hd : d = c
      · simp [lookupChild, hd] at h
      · simp [lookupChild, hd] at h
        simp [updateChild, hd, ih h]

theorem lookupChild_append (cs ds : List (Char × Node)) (c : Char) :
    lookupChild (cs ++ ds) c =
      (lookupChild cs c).orElse (fun _ => lookupChild ds c) := by
  induction cs with
  | nil => simp [lookupChild]
  | cons p rest ih =>
      obtain ⟨d, m⟩ := p
      by_cases h : d = c <;> simp [lookupChild, h, ih]

theorem removeChild_absent (cs : List (Char × Node)) (c : Char)
    (h : lookupChild cs c = none) : removeChild cs c = cs := by
  induction cs with
  | nil => simp [removeChild]
  | cons p rest ih =>
      obtain ⟨d, m⟩ := p
      by_cases hd : d = c
      · simp [lookupChild, hd] at h
      · simp [lookupChild, hd] at h
        simp [removeChild, hd, ih h]

theorem removeChild_append_absent (cs : List (Char × Node)) (c : Char) (n : Node)
    (h : lookupChild cs c = none) : removeChild (cs ++ [(c, n)]) c = cs := by
  induction cs with
  | nil => simp [removeChild]
  | cons p rest ih =>
      obtain ⟨d, m⟩ := p
      by_cases hd : d = c
      · simp [lookupChild, hd] at h
      · simp [lookupChild, hd] at h
        simp [removeChild, hd, ih h]

/-- `Trie.Insert` from `internal/trie/trie.go` (lines 29-40): walk the word
rune by rune from the root, creating missing children, then mark the final
node as a word. There is no empty-word guard in this variant: on `""` the
loop body never runs and the root itself is marked. The iterative
pointer-walk is rendered as structural recursion along the word; the write
back into the parent map is `updateChild`. -/
def insertNode : Node → Word → Node
  | .mk _ cs, [] => .mk true cs
  | .mk b cs, c :: rest =>
      match lookupChild cs c with
      | some child => .mk b (updateChild cs c (insertNode child rest))
      | none => .mk b (updateChild cs c (insertNode newNode rest))

/-- `Trie.Exists` from `internal/trie/trie.go` (lines 70-81): walk the
word's runes; false as soon as a child is missing, else the final node's
`IsWord` flag. -/
def existsNode : Node → Word → Bool
  | .mk b _, [] => b
  | .mk _ cs, c :: rest =>
      match lookupChild cs c with
      | some child => existsNode child rest
      | none => false

/-- The pruning pass of `Trie.Delete` (lines 58-66), in the case where
every rune of the word is a single UTF-8 byte, so that the byte indices
`i = len(word)-1 .. 0` of the Go loop coincide with the rune positions and
`stack[i]`, `stack[i+1]` are the path nodes at depths `i` and `i+1`.
Processed from the leaf upwards (the order of the Go loop): clear `IsWord`
at the final node, then remove each child that has become childless and
non-word from its parent's map; a kept child is the (possibly updated)
object the parent's map still points to. -/
def delRec : Node → Word → Node
  | .mk _ cs, [] => .mk false cs
  | .mk b cs, c :: rest =>
      match lookupChild cs c with
      | none => .mk b cs
      | some child =>
          let child' := delRec child rest
          if child'.children.isEmpty && !child'.isWord then
            .mk b (removeChild cs c)
          else
            .mk b (updateChild cs c child')

/-- `Trie.Delete` from `internal/trie/trie.go` (lines 43-67). The walk
(lines 46-57) ranges over runes and returns early when the path is missing
or the final node is not a word — together exactly `existsNode = false`.
The pruning loop (lines 59-66) then iterates `i` over BYTE indices
`len(word)-1 .. 0` while the stack holds one node per RUNE plus the root:
its first access `stack[i+1] = stack[len(word)]` is out of range exactly
when `byteLen word > word.length`, i.e. when some rune is multi-byte —
Go panics, modelled as `none`. When every rune is single-byte the loop's
byte positions are the rune positions and the loop is `delRec`. -/
def goDelete (t : Node) (w : Word) : Option Node :=
  if existsNode t w then
    if w.length < byteLen w then none
    else some (delRec t w)
  else some t

/-- `Insert` of the second trie variant (`src/unnamed/part_003`, lines
23-40): identical walk to `insertNode`, but guarded — an empty word is a
no-op. -/
def insertV2 (t : Node) (w : Word) : Node :=
  if w = [] then t else insertNode t w

/-- The rune walk shared by `Search` (`part_003`) and
`ListWordsHandlerV1`: descend along the word, `none` when a child is
missing. -/
def walkNode : Node → Word → Option Node
  | n, [] => some n
  | n, c :: rest =>
      match lookupChild n.children c with
      | some child => walkNode child rest
      | none => none

mutual
/-- `collectWords` (`part_003` lines 42-51; identically
`Trie.CollectWords` in `internal/trie/trie.go` lines 84-93): the current
prefix if this node is a word, then every child's words in map-iteration
order (realised as list order), each child contributing under
`prefix ++ [char]`. -/
def collectWords : Node → Word → List Word
  | .mk b cs, pre => (if b then [pre] else []) ++ collectList cs pre
/-- Iteration of `collectWords` over a node's children map. -/
def collectList : List (Char × Node) → Word → List Word
  | [], _ => []
  | (c, n) :: rest, pre => collectWords n (pre ++ [c]) ++ collectList rest pre
end

mutual
/-- `Trie.CountWords` from `internal/trie/trie.go` (lines 96-105): number
of word nodes in the subtree. -/
def countWords : Node → Nat
  | .mk b cs => (if b then 1 else 0) + countList cs
/-- Iteration of `countWords` over a node's children map. -/
def countList : List (Char × Node) → Nat
  | [] => 0
  | (_, n) :: rest => countWords n + countList rest
end

/-- `Search` from the second trie variant (`src/unnamed/part_003`, lines
53-70): empty prefix yields no results; otherwise walk the prefix (empty
result when a rune is missing) and collect the subtree's words under the
full prefix. -/
def search (t : Node) (p : Word) : List Word :=
  if p = [] then []
  else
    match walkNode t p with
    | none => []
    | some n => collectWords n p

mutual
/-- Structural node count of the tree (this node plus all descendants).
Not a function of the Go source; it is the measure by which the spec
states "the index's node count returns to its pre-insert value". -/
def numNodes : Node → Nat
  | .mk _ cs => 1 + numNodesList cs
/-- Sum of `numNodes` over a children map. -/
def numNodesList : List (Char × Node) → Nat
  | [] => 0
  | (_, n) :: rest => numNodes n + numNodesList rest
end

/-- A node is live when it is a word or still has children; `Trie.Delete`
prunes exactly the non-live nodes on the deleted word's path. -/
def liveB (n : Node) : Bool := n.isWord || !n.children.isEmpty

mutual
/-- The spec's pruning invariant (§3): every node strictly below this one
is live (a node with no children and no word mark does not linger). -/
def prunedNode : Node → Bool
  | .mk _ cs => prunedList cs
/-- Iteration of `prunedNode` over a children map. -/
def prunedList : List (Char × Node) → Bool
  | [] => true
  | (_, n) :: rest => liveB n && prunedNode n && prunedList rest
end

mutual
/-- Well-formedness of the model's map encoding: every children
association list has pairwise-distinct keys (Go map keys are unique).
All states built by the operations from `newNode` satisfy it. -/
def wfNode : Node → Bool
  | .mk _ cs => wfList cs
/-- Keys of this children list are distinct, and every child is
well-formed. -/
def wfList : List (Char × Node) → Bool
  | [] => true
  | (c, n) :: rest => (lookupChild rest c).isNone && wfNode n && wfList rest
end

/-! The V1 handler layer (`internal/handlers/v1.go`): a shared trie
(`trieV1`) and a shared lookup cache (`cacheV1`, `patrickmn/go-cache`).
The cache maps a query signature — for `ListWordsHandlerV1`, the raw
`prefix` query parameter — to the result slice. Expiry is not modelled:
every claim concerns behaviour within the entries' TTL window, where
`Get` returns any entry previously `Set` and not deleted/flushed. -/

/-- Cache contents: association of signature to cached result list. -/
abbrev Cache := List (Word × List Word)

/-- `cache.Get(key)`. -/
def cacheGet : Cache → Word → Option (List Word)
  | [], _ => none
  | (k, v) :: rest, w => if k = w then some v else cacheGet rest w

/-- `cache.Set(key, value, ttl)`: overwrite or add. -/
def cacheSet : Cache → Word → List Word → Cache
  | [], w, v => [(w, v)]
  | (k, u) :: rest, w, v =>
      if k = w then (w, v) :: rest else (k, u) :: cacheSet rest w v

/-- `cache.Delete(key)`. -/
def cacheDelete : Cache → Word → Cache
  | [], _ => []
  | (k, u) :: rest, w =>
      if k = w then cacheDelete rest w else (k, u) :: cacheDelete rest w

/-- The handler package's shared mutable state: `trieV1` and `cacheV1`. -/
structure Sys where
  trie : Node
  cache : Cache
deriving Repr

/-- Process-start state: `trie.NewTrie()` and an empty cache. -/
def sysInit : Sys := ⟨newNode, []⟩

/-- An HTTP response: status code and message body text. -/
abbrev Resp := Nat × String

/-- Outcome of `json.NewDecoder(r.Body).Decode(&request)` in
`AddWordsHandlerV1`. Go's decoder unmarshals best-effort: a JSON syntax
error aborts and leaves `request.Words` at its zero value `nil`, but a
type error (e.g. body `{"words":["abc",1]}`) returns a non-nil
`UnmarshalTypeError` AND still populates `request.Words` with every
element it could decode, zero values for the rest (here `["abc",""]`).
`words` is the content of `request.Words` after `Decode` returns and
`err` records whether the returned error was non-nil. -/
structure DecodeOutcome where
  words : List Word
  err : Bool
deriving Repr

/-- `AddWordsHandlerV1` (`v1.go` lines 117-128). The decode error is
ignored — `json.NewDecoder(r.Body).Decode(&request)` is not even bound to
a variable — so the handler never consults `err`: it inserts
`strings.ToLower(word)` for whatever `Decode` left in `request.Words`
(best-effort populated on a type error, `nil` on a syntax error),
flushing the whole cache once per inserted word (the flush statement is
inside the loop), and always answers 200 with a success message. -/
def addWordsHandlerV1 (d : DecodeOutcome) (s : Sys) : Sys × Resp :=
  let s' := d.words.foldl (fun st w => ⟨insertNode st.trie (lowerWord w), []⟩) s
  (s', (200, "Words added successfully."))

/-- The prefix walk of `ListWordsHandlerV1` (lines 153-161): `node` starts
at the root and follows each rune of the prefix, stopping (Go `break`) at
the first missing child; the node reached so far is returned. The
`results`/`count` assignments inside the loop are dead: `count` is never
set to a non-zero value before the `if count == 0` that follows, so that
branch always runs and overwrites them. -/
def listWalk : Node → Word → Node
  | n, [] => n
  | n, c :: rest =>
      match lookupChild n.children c with
      | some child => listWalk child rest
      | none => n

/-- The cache-miss body of `ListWordsHandlerV1` (lines 149-166): empty
prefix collects every word from the root (count from `CountWords`);
otherwise — because `count == 0` always holds after the walk — the
handler collects from the last node the walk reached, under the FULL
requested prefix, even when the walk stopped early because a rune was
missing. -/
def listWordsCore (t : Node) (p : Word) : List Word × Nat :=
  if p = [] then (collectWords t [], countWords t)
  else
    let r := collectWords (listWalk t p) p
    (r, r.length)

/-- `ListWordsHandlerV1` (lines 140-178): probe the cache with the raw
prefix; on a hit answer the cached slice, on a miss compute
`listWordsCore` and store the results under the prefix. Returns the new
state and the response's `(data, count)`. -/
def listWordsHandlerV1 (p : Word) (s : Sys) : Sys × (List Word × Nat) :=
  match cacheGet s.cache p with
  | some r => (s, (r, r.length))
  | none =>
      let rc := listWordsCore s.trie p
      (⟨s.trie, cacheSet s.cache p rc.1⟩, rc)

/-- `DeleteWordsHandlerV1` (lines 190-210): a decode failure — `none` —
answers 400 and changes nothing. An empty word replaces the trie with a
fresh one and flushes the cache. Otherwise `trieV1.Delete(word)` runs
(`none` when it panics, see `goDelete`; the word is NOT lowercased) and
only the cache entry keyed by the word itself is removed
(`cacheV1.Delete(request.Word)`). -/
def deleteWordsHandlerV1 (decoded : Option Word) (s : Sys) : Option (Sys × Resp) :=
  match decoded with
  | none => some (s, (400, "Invalid request body"))
  | some w =>
      if w = [] then some (⟨newNode, []⟩, (200, "Word(s) deleted successfully."))
      else
        match goDelete s.trie w with
        | none => none
        | some t' => some (⟨t', cacheDelete s.cache w⟩, (200, "Word(s) deleted successfully."))

/-- `WordsExistsHandlerV1` (lines 222-238): 400 (modelled `none`) when the
`word` query parameter is empty; otherwise `trieV1.Exists(word)` on the
word exactly as given — no case folding, no trimming. -/
def wordsExistsHandlerV1 (w : Word) (s : Sys) : Option Bool :=
  if w = [] then none else some (existsNode s.trie w)

/-! Basic lemmas about the trie operations. -/

theorem existsNode_nil_node (w : Word) : existsNode (Node.mk false []) w = false := by
  cases w <;> rfl

theorem existsNode_newNode (w : Word) : existsNode newNode w = false :=
  existsNode_nil_node w

theorem existsNode_insertNode (v : Word) : ∀ (t : Node) (w : Word),
    existsNode (insertNode t v) w = true ↔ w = v ∨ existsNode t w = true := by
  induction v with
  | nil =>
      intro t w
      cases t with | mk b cs =>
      cases w with
      | nil => simp [insertNode, existsNode]
      | cons d s => simp [insertNode, existsNode]
  | cons c r ih =>
      intro t w
      cases t with | mk b cs =>
      cases h : lookupChild cs c with
      | some child =>
          cases w with
          | nil => simp [insertNode, existsNode, h]
          | cons d s =>
              by_cases hdc : d = c
              · subst hdc
                simp only [insertNode, h, existsNode, lookupChild_updateChild_self]
                rw [ih child s]
                simp [existsNode, h]
              · simp only [insertNode, h, existsNode,
                  lookupChild_updateChild_ne cs c _ d hdc]
                simp [existsNode, hdc]
      | none =>
          cases w with
          | nil => simp [insertNode, existsNode, h]
          | cons d s =>
              by_cases hdc : d = c
              · subst hdc
                simp only [insertNode, h, existsNode, lookupChild_updateChild_self]
                rw [ih newNode s]
                simp [existsNode, h, existsNode_newNode]
              · simp only [insertNode, h, existsNode,
                  lookupChild_updateChild_ne cs c _ d hdc]
                simp [existsNode, hdc]

theorem existsNode_insertNode_self (t : Node) (w : Word) :
    existsNode (insertNode t w) w = true :=
  (existsNode_insertNode w t w).mpr (Or.inl rfl)

theorem insertNode_of_exists (w : Word) : ∀ (t : Node),
    existsNode t w = true → insertNode t w = t := by
  induction w with
  | nil =>
      intro t h
      cases t with | mk b cs =>
      simp [existsNode] at h
      simp [insertNode, h]
  | cons c r ih =>
      intro t h
      cases t with | mk b cs =>
      cases hl : lookupChild cs c with
      | some child =>
          simp only [existsNode, hl] at h
          simp only [insertNode, hl, ih child h,
            updateChild_self_of_lookup cs c child hl]
      | none => simp [existsNode, hl] at h

theorem insertNode_idem (t : Node) (w : Word) :
    insertNode (insertNode t w) w = insertNode t w :=
  insertNode_of_exists w _ (existsNode_insertNode_self t w)

theorem insertV2_idem (t : Node) (w : Word) :
    insertV2 (insertV2 t w) w = insertV2 t w := by
  by_cases h : w = []
  · simp [insertV2, h]
  · simp [insertV2, h, insertNode_idem]

/-! Lemmas about the pruning deletion. -/

theorem existsNode_delRec (v : Word) : ∀ (t : Node) (w : Word),
    existsNode (delRec t v) w = true ↔ existsNode t w = true ∧ w ≠ v := by
  induction v with
  | nil =>
      intro t w
      cases t with | mk b cs =>
      cases w with
      | nil => simp [delRec, existsNode]
      | cons d s => simp [delRec, existsNode]
  | cons c r ih =>
      intro t w
      cases t with | mk b cs =>
      cases hl : lookupChild cs c with
      | none =>
          cases w with
          | nil => simp [delRec, existsNode, hl]
          | cons d s =>
              by_cases hdc : d = c
              · subst hdc
                simp [delRec, existsNode, hl]
              · simp [delRec, existsNode, hl, hdc]
      | some child =>
          by_cases hdead : (delRec child r).children.isEmpty && !(delRec child r).isWord
          · have hgone : ∀ (s : Word), existsNode (delRec child r) s = false := by
              intro s
              cases hch : delRec child r with | mk b' cs' =>
              rw [hch] at hdead
              simp only [Node.children_mk, Node.isWord_mk, Bool.and_eq_true,
                List.isEmpty_iff, Bool.not_eq_true'] at hdead
              rw [hdead.1, hdead.2]
              exact existsNode_nil_node s
            cases w with
            | nil => simp [delRec, existsNode, hl, hdead]
            | cons d s =>
                by_cases hdc : d = c
                · subst hdc
                  simp only [delRec, hl, hdead, if_pos, existsNode,
                    lookupChild_removeChild_self]
                  have h2 := (ih child s).not
                  constructor
                  · intro h
                    exact absurd h (by simp)
                  · intro ⟨h1, h2'⟩
                    have := (ih child s).mpr ⟨h1, fun hs => h2' (by rw [hs])⟩
                    rw [hgone s] at this
                    exact absurd this (by simp)
                · simp only [delRec, hl, hdead, if_pos, existsNode,
                    lookupChild_removeChild_ne cs c d hdc]
                  simp [hdc]
          · cases w with
            | nil => simp [delRec, existsNode, hl, hdead]
            | cons d s =>
                by_cases hdc : d = c
                · subst hdc
                  simp only [delRec, hl, hdead, if_neg, existsNode,
                    lookupChild_updateChild_self]
                  rw [ih child s]
                  simp
                · simp only [delRec, hl, hdead, if_neg, existsNode,
                    lookupChild_updateChild_ne cs c _ d hdc]
                  simp [hdc]

theorem delRec_insert_chain (r : Word) :
    delRec (insertNode newNode r) r = Node.mk false [] := by
  induction r with
  | nil => rfl
  | cons c s ih =>
      have ih' : delRec (insertNode (Node.mk false []) s) s = Node.mk false [] := ih
      simp [insertNode, newNode, lookupChild, updateChild, delRec, ih',
        Node.children, Node.isWord, removeChild]

theorem prunedList_lookup (c : Char) (n : Node) : ∀ (cs : List (Char × Node)),
    prunedList cs = true → lookupChild cs c = some n →
    liveB n = true ∧ prunedNode n = true := by
  intro cs
  induction cs with
  | nil => intro _ h; simp [lookupChild] at h
  | cons p rest ih =>
      obtain ⟨d, m⟩ := p
      intro hp hl
      simp only [prunedList, Bool.and_eq_true] at hp
      by_cases hdc : d = c
      · subst hdc
        simp [lookupChild] at hl
        subst hl
        exact ⟨hp.1.1, hp.1.2⟩
      · simp [lookupChild, hdc] at hl
        exact ih hp.2 hl

theorem delRec_insertNode_restore (w : Word) : ∀ (t : Node),
    prunedNode t = true → existsNode t w = false →
    delRec (insertNode t w) w = t := by
  induction w with
  | nil =>
      intro t _ he
      cases t with | mk b cs =>
      simp [existsNode] at he
      simp [insertNode, delRec, he]
  | cons c r ih =>
      intro t hp he
      cases t with | mk b cs =>
      cases hl : lookupChild cs c with
      | some child =>
          have hch := prunedList_lookup c child cs (by simpa [prunedNode] using hp) hl
          have hech : existsNode child r = false := by
            simpa [existsNode, hl] using he
          have hrec : delRec (insertNode child r) r = child :=
            ih child hch.2 hech
          have hlive : ((delRec (insertNode child r) r).children.isEmpty &&
              !(delRec (insertNode child r) r).isWord) = false := by
            rw [hrec]
            have := hch.1
            cases child with | mk b' cs' =>
            simp only [liveB, Node.isWord_mk, Node.children_mk,
              Bool.or_eq_true] at this ⊢
            rcases this with h | h
            · simp [h]
            · simp_all
          simp only [insertNode, hl, delRec, lookupChild_updateChild_self,
            hlive, Bool.false_eq_true, if_false]
          rw [hrec, updateChild_updateChild, updateChild_self_of_lookup cs c child hl]
      | none =>
          have habs : updateChild cs c (insertNode newNode r) =
              cs ++ [(c, insertNode newNode r)] := updateChild_absent cs c _ hl
          simp only [insertNode, hl, delRec, habs, lookupChild_append, hl,
            Option.orElse]
          simp only [lookupChild, if_pos]
          rw [delRec_insert_chain r]
          simp only [Node.children_mk, Node.isWord_mk, List.isEmpty_nil,
        Bool.not_false, Bool.and_self, if_pos]
          rw [removeChild_append_absent cs c _ hl]

theorem goDelete_insertNode_restore (t : Node) (w : Word)
    (hp : prunedNode t = true) (he : existsNode t w = false)
    (hb : byteLen w = w.length) :
    goDelete (insertNode t w) w = some t := by
  have h1 : existsNode (insertNode t w) w = true := existsNode_insertNode_self t w
  simp only [goDelete, h1, if_pos, hb, Nat.lt_irrefl, if_neg, if_false]
  rw [delRec_insertNode_restore w t hp he]

theorem goDelete_preserves_ne (t : Node) (v w : Word) (t' : Node)
    (h : goDelete t v = some t') (hw : w ≠ v) :
    existsNode t' w = existsNode t w := by
  unfold goDelete at h
  by_cases hv : existsNode t v = true
  · rw [if_pos hv] at h
    by_cases hbl : v.length < byteLen v
    · rw [if_pos hbl] at h; exact absurd h (by simp)
    · rw [if_neg hbl] at h
      have ht' : t' = delRec t v := by
        injection h with h; exact h.symm
      subst ht'
      cases hw2 : existsNode t w with
      | true => exact ((existsNode_delRec v t w).mpr ⟨hw2, hw⟩)
      | false =>
          cases hd : existsNode (delRec t v) w with
          | false => rfl
          | true =>
              have := (existsNode_delRec v t w).mp hd
              rw [hw2] at this
              exact absurd this.1 (by simp)
  · rw [if_neg hv] at h
    injection h with h
    rw [h]

/-! Well-formedness (unique map keys) is preserved by the operations. -/

theorem wfList_updateChild (c : Char) (n : Node) : ∀ (cs : List (Char × Node)),
    wfList cs = true → wfNode n = true → wfList (updateChild cs c n) = true := by
  intro cs
  induction cs with
  | nil => intro _ hn; simp [updateChild, wfList, lookupChild, hn]
  | cons p rest ih =>
      obtain ⟨d, m⟩ := p
      intro hw hn
      simp only [wfList, Bool.and_eq_true] at hw
      by_cases hdc : d = c
      · subst hdc
        simp [updateChild, wfList, hw.1.1, hn, hw.2]
      · simp only [updateChild, hdc, if_false, wfList, Bool.and_eq_true]
        refine ⟨⟨?_, hw.1.2⟩, ih hw.2 hn⟩
        rw [lookupChild_updateChild_ne rest c n d hdc]
        exact hw.1.1

theorem wfList_lookup (c : Char) (n : Node) : ∀ (cs : List (Char × Node)),
    wfList cs = true → lookupChild cs c = some n → wfNode n = true := by
  intro cs
  induction cs with
  | nil => intro _ h; simp [lookupChild] at h
  | cons p rest ih =>
      obtain ⟨d, m⟩ := p
      intro hw hl
      simp only [wfList, Bool.and_eq_true] at hw
      by_cases hdc : d = c
      · subst hdc
        simp [lookupChild] at hl
        subst hl
        exact hw.1.2
      · simp [lookupChild, hdc] at hl
        exact ih hw.2 hl

theorem wfNode_insertNode (w : Word) : ∀ (t : Node),
    wfNode t = true → wfNode (insertNode t w) = true := by
  induction w with
  | nil =>
      intro t h
      cases t with | mk b cs =>
      simpa [insertNode, wfNode] using h
  | cons c r ih =>
      intro t h
      cases t with | mk b cs =>
      simp only [wfNode] at h
      cases hl : lookupChild cs c with
      | some child =>
          have hc : wfNode child = true := wfList_lookup c child cs h hl
          simp only [insertNode, hl, wfNode]
          exact wfList_updateChild c _ cs h (ih child hc)
      | none =>
          have hc : wfNode newNode = true := by simp [newNode, wfNode, wfList]
          simp only [insertNode, hl, wfNode]
          exact wfList_updateChild c _ cs h (ih newNode hc)

theorem wfNode_newNode : wfNode newNode = true := by
  simp [newNode, wfNode, wfList]

theorem wfNode_walkNode (p : Word) : ∀ (t n : Node),
    wfNode t = true → walkNode t p = some n → wfNode n = true := by
  induction p with
  | nil =>
      intro t n h hw
      simp only [walkNode] at hw
      injection hw with hw
      rw [← hw]; exact h
  | cons c r ih =>
      intro t n h hw
      cases t with | mk b cs =>
      cases hl : lookupChild cs c with
      | some child =>
          simp only [walkNode, Node.children_mk, hl] at hw
          exact ih child n (wfList_lookup c child cs (by simpa [wfNode] using h) hl) hw
      | none => simp [walkNode, hl] at hw

/-! Membership characterisation of `collectWords` and `search`. -/

mutual
theorem mem_collectWords : ∀ (n : Node) (pre w : Word), wfNode n = true →
    (w ∈ collectWords n pre ↔ ∃ s, w = pre ++ s ∧ existsNode n s = true)
  | .mk b cs, pre, w, hwf => by
      have hl := mem_collectList cs pre w (by simpa [wfNode] using hwf)
      simp only [collectWords, List.mem_append]
      constructor
      · intro h
        rcases h with h | h
        · refine ⟨[], ?_, ?_⟩
          · cases b with
            | true => simpa using h
            | false => simp at h
          · cases b with
            | true => simp [existsNode]
            | false => simp at h
        · obtain ⟨c, n', s, hlk, hws, hex⟩ := hl.mp h
          exact ⟨c :: s, by simpa using hws, by simp [existsNode, hlk, hex]⟩
      · intro ⟨s, hws, hex⟩
        cases s with
        | nil =>
            left
            simp only [existsNode] at hex
            simp [hex, hws]
        | cons c s' =>
            right
            cases hlk : lookupChild cs c with
            | none => simp [existsNode, hlk] at hex
            | some n' =>
                refine hl.mpr ⟨c, n', s', hlk, by simpa using hws, ?_⟩
                simpa [existsNode, hlk] using hex
theorem mem_collectList : ∀ (cs : List (Char × Node)) (pre w : Word),
    wfList cs = true →
    (w ∈ collectList cs pre ↔
      ∃ c n s, lookupChild cs c = some n ∧ w = pre ++ c :: s ∧ existsNode n s = true)
  | [], pre, w, _ => by simp [collectList, lookupChild]
  | (c, n) :: rest, pre, w, hwf => by
      have hw : (lookupChild rest c).isNone ∧ wfNode n = true ∧ wfList rest = true := by
        simpa [wfList, Bool.and_eq_true, and_assoc] using hwf
      have h1 := mem_collectWords n (pre ++ [c]) w hw.2.1
      have h2 := mem_collectList rest pre w hw.2.2
      simp only [collectList, List.mem_append]
      constructor
      · intro h
        rcases h with h | h
        · obtain ⟨s, hws, hex⟩ := h1.mp h
          exact ⟨c, n, s, by simp [lookupChild], by simpa using hws, hex⟩
        · obtain ⟨d, n', s, hlk, hws, hex⟩ := h2.mp h
          have hdc : c ≠ d := by
            intro hcd
            subst hcd
            have := hw.1
            rw [hlk] at this
            simp at this
          refine ⟨d, n', s, ?_, hws, hex⟩
          simp only [lookupChild, hdc, if_false]
          exact hlk
      · intro ⟨d, n', s, hlk, hws, hex⟩
        by_cases hdc : c = d
        · subst hdc
          simp only [lookupChild, if_pos] at hlk
          injection hlk with hlk
          subst hlk
          exact Or.inl (h1.mpr ⟨s, by simpa using hws, hex⟩)
        · simp only [lookupChild, hdc, if_false] at hlk
          exact Or.inr (h2.mpr ⟨d, n', s, hlk, hws, hex⟩)
end

theorem existsNode_append_walk (p : Word) : ∀ (t : Node) (s : Word),
    existsNode t (p ++ s) =
      (match walkNode t p with
        | some n => existsNode n s
        | none => false) := by
  induction p with
  | nil => intro t s; simp [walkNode]
  | cons c r ih =>
      intro t s
      cases t with | mk b cs =>
      cases hl : lookupChild cs c with
      | some child => simp [existsNode, walkNode, hl, ih child s]
      | none => simp [existsNode, walkNode, hl]

theorem mem_search (t : Node) (p w : Word) (hwf : wfNode t = true) (hp : p ≠ []) :
    w ∈ search t p ↔ p <+: w ∧ existsNode t w = true := by
  simp only [search, hp, if_false, if_neg]
  cases hw : walkNode t p with
  | none =>
      simp only [List.not_mem_nil, false_iff, not_and]
      rintro ⟨s, rfl⟩
      rw [existsNode_append_walk p t s, hw]
      simp
  | some n =>
      rw [mem_collectWords n p w (wfNode_walkNode p t n hwf hw)]
      constructor
      · rintro ⟨s, rfl, hex⟩
        refine ⟨⟨s, rfl⟩, ?_⟩
        rw [existsNode_append_walk p t s, hw]
        exact hex
      · rintro ⟨⟨s, rfl⟩, hex⟩
        rw [existsNode_append_walk p t s, hw] at hex
        exact ⟨s, rfl, hex⟩

/-! Words present after a sequence of inserts (second trie variant). -/

/-- The index built by inserting each word of `ws` in order into a fresh
trie with the guarded `Insert` of `src/unnamed/part_003`. -/
def buildV2 (ws : List Word) : Node := ws.foldl insertV2 newNode

theorem existsNode_insertV2 (t : Node) (v w : Word) :
    existsNode (insertV2 t v) w = true ↔
      (w = v ∧ v ≠ []) ∨ existsNode t w = true := by
  by_cases hv : v = []
  · simp [insertV2, hv]
  · rw [insertV2, if_neg hv, existsNode_insertNode]
    constructor
    · rintro (rfl | h)
      · exact Or.inl ⟨rfl, hv⟩
      · exact Or.inr h
    · rintro (⟨rfl, _⟩ | h)
      · exact Or.inl rfl
      · exact Or.inr h

theorem existsNode_foldl_insertV2 (ws : List Word) : ∀ (t : Node) (w : Word),
    existsNode (ws.foldl insertV2 t) w = true ↔
      (w ∈ ws ∧ w ≠ []) ∨ existsNode t w = true := by
  induction ws with
  | nil => intro t w; simp
  | cons v rest ih =>
      intro t w
      rw [List.foldl_cons, ih (insertV2 t v) w, existsNode_insertV2 t v w]
      simp only [List.mem_cons]
      constructor
      · rintro (⟨hm, hne⟩ | ⟨rfl, hne⟩ | h)
        · exact Or.inl ⟨Or.inr hm, hne⟩
        · exact Or.inl ⟨Or.inl rfl, hne⟩
        · exact Or.inr h
      · rintro (⟨rfl | hm, hne⟩ | h)
        · exact Or.inr (Or.inl ⟨rfl, hne⟩)
        · exact Or.inl ⟨hm, hne⟩
        · exact Or.inr (Or.inr h)

theorem wfNode_buildV2 (ws : List Word) : wfNode (buildV2 ws) = true := by
  have : ∀ (t : Node), wfNode t = true → wfNode (ws.foldl insertV2 t) = true := by
    induction ws with
    | nil => intro t h; simpa using h
    | cons v rest ih =>
        intro t h
        simp only [List.foldl_cons]
        refine ih _ ?_
        by_cases hv : v = []
        · simpa [insertV2, hv] using h
        · rw [insertV2, if_neg hv]
          exact wfNode_insertNode v t h
  exact this newNode wfNode_newNode

/-! Concrete scenario states used by the claim theorems. -/

/-- The word "cat". -/
def catWord : Word := ['c', 'a', 't']

/-- The prefix "ca". -/
def caWord : Word := ['c', 'a']

/-- State after `POST /api/v1/words` with body `{"words":["cat"]}`. -/
def c1AfterAdd : Sys := (addWordsHandlerV1 ⟨[catWord], false⟩ sysInit).1

/-- State after a subsequent `GET /api/v1/words?prefix=ca` (caches the
result `["cat"]` under signature "ca"). -/
def c1AfterList : Sys := (listWordsHandlerV1 caWord c1AfterAdd).1

/-- State after a subsequent `DELETE /api/v1/words` with body
`{"word":"cat"}`. -/
def c1AfterDelete : Sys :=
  ((deleteWordsHandlerV1 (some catWord) c1AfterList).getD (sysInit, (0, ""))).1

/-- The word "Hello". -/
def helloUpper : Word := ['H', 'e', 'l', 'l', 'o']

/-- State after `POST /api/v1/words` with body `{"words":["Hello"]}`. -/
def sysHello : Sys := (addWordsHandlerV1 ⟨[helloUpper], false⟩ sysInit).1

/-- An index state violating the pruning invariant: the root has one
child for 'a' that is childless and not a word. -/
def deadChainState : Node := Node.mk false [('a', Node.mk false [])]

/-- A trie storing the words "ma" and "mama" ("ma" a proper prefix of
"mama"). -/
def tPair : Node := insertNode (insertNode newNode ['m', 'a']) ['m', 'a', 'm', 'a']

/-! Claim theorems. -/

/-- C1: the claim says a `Search` whose signature was previously cached
must reflect a later `Delete` mutation. The code violates it:
`DeleteWordsHandlerV1` removes only the cache entry keyed by the deleted
word itself, while `ListWordsHandlerV1` keys the cache by the search
prefix. Concretely: add "cat", list with prefix "ca" (caching `["cat"]`
under "ca"), delete "cat" — the trie no longer contains "cat", yet a
repeat of the same listing is served from the stale cache entry and still
returns `["cat"]`. -/
theorem delete_handler_serves_stale_cache :
    (listWordsHandlerV1 caWord c1AfterAdd).2.1 = [catWord] ∧
    (deleteWordsHandlerV1 (some catWord) c1AfterList).isSome = true ∧
    existsNode c1AfterDelete.trie catWord = false ∧
    (listWordsHandlerV1 caWord c1AfterDelete).2.1 = [catWord] :=
  ⟨by decide, by decide, by decide, by decide⟩

/-- C2 (counterexample): the claim says an existence check succeeds for
any casing of an added word. In the code `AddWordsHandlerV1` lowercases
on insert but `WordsExistsHandlerV1` does not lowercase the queried word:
after adding "Hello", `Exists("hello")` is true but `Exists("Hello")` is
false (the claim asserts true), and `Exists("HELLO ")` is false. -/
theorem exists_handler_case_sensitive_cex :
    wordsExistsHandlerV1 ['h', 'e', 'l', 'l', 'o'] sysHello = some true ∧
    wordsExistsHandlerV1 ['H', 'e', 'l', 'l', 'o'] sysHello = some false ∧
    wordsExistsHandlerV1 ['H', 'E', 'L', 'L', 'O', ' '] sysHello = some false :=
  ⟨by decide, by decide, by decide⟩

/-- C2 (amended): only insertion case-folds; lookup is exact. After any
word is added through `AddWordsHandlerV1`, the existence check succeeds
for the lowercase form of that word (and, per the counterexample, for no
other casing unless it is independently stored). -/
theorem add_then_exists_lowercase (s : Sys) (c : Char) (cs : Word) :
    wordsExistsHandlerV1 (lowerWord (c :: cs))
      ((addWordsHandlerV1 ⟨[c :: cs], false⟩ s).1) = some true := by
  have h1 : (addWordsHandlerV1 ⟨[c :: cs], false⟩ s).1 =
      ⟨insertNode s.trie (lowerWord (c :: cs)), []⟩ := rfl
  rw [h1]
  have h2 : lowerWord (c :: cs) = lowerChar c :: lowerWord cs := rfl
  simp only [wordsExistsHandlerV1]
  rw [if_neg (by rw [h2]; exact List.cons_ne_nil _ _)]
  rw [existsNode_insertNode_self]

/-- C3: the claim says every index operation, in particular `Delete`, is
total over all strings including multi-byte code points. The code's
pruning loop indexes the per-rune stack by byte positions: for the
present one-rune, two-byte word "é" it reads `stack[2]` of a two-element
stack — an out-of-range panic, modelled as `none`. -/
theorem delete_panics_on_multibyte_word :
    byteLen ['é'] = 2 ∧ (['é'] : Word).length = 1 ∧
    existsNode (insertNode newNode ['é']) ['é'] = true ∧
    goDelete (insertNode newNode ['é']) ['é'] = none :=
  ⟨by decide, by decide, by decide, rfl⟩

/-- C4: the claim says inserting the empty string is a no-op and
`Exists("")` is always false. In `internal/trie/trie.go` the insert loop
has no empty-word guard: `Insert("")` marks the root node as a word, after
which `Exists("")` returns true. -/
theorem insert_empty_marks_root :
    existsNode newNode [] = false ∧
    existsNode (insertNode newNode []) [] = true ∧
    (insertNode newNode []).isWord = true :=
  ⟨by decide, by decide, by decide⟩

/-- C5 (counterexample): the claim says `Search(p)` matches
case-insensitively and returns a lexicographically sorted sequence.
Neither holds: `Search` folds no case — after inserting "Hello",
searching "hel" finds nothing although lowercase "hello" starts with
"hel" — and results follow map-iteration order, not sorted order: after
inserting "ab" then "aa", searching "a" yields `["ab", "aa"]`. -/
theorem search_case_and_sort_cex :
    search (insertV2 newNode ['H', 'e', 'l', 'l', 'o']) ['h', 'e', 'l'] = [] ∧
    lowerWord ['H', 'e', 'l', 'l', 'o'] = ['h', 'e', 'l', 'l', 'o'] ∧
    search (insertV2 (insertV2 newNode ['a', 'b']) ['a', 'a']) ['a'] =
      [['a', 'b'], ['a', 'a']] :=
  ⟨by decide, by decide, by decide⟩

/-- C5 (amended): for every sequence of inserts and every non-empty
prefix `p`, `Search(p)` returns exactly the set of inserted non-empty
words having `p` as a prefix under exact code-point comparison (the
handlers, not `Search`, are responsible for any case folding), in
unspecified (map-iteration) enumeration order. -/
theorem mem_search_buildV2 (ws : List Word) (p w : Word) (hp : p ≠ []) :
    w ∈ search (buildV2 ws) p ↔ p <+: w ∧ w ∈ ws ∧ w ≠ [] := by
  rw [mem_search (buildV2 ws) p w (wfNode_buildV2 ws) hp]
  rw [show buildV2 ws = ws.foldl insertV2 newNode from rfl,
    existsNode_foldl_insertV2, existsNode_newNode]
  simp

/-- Witness for `mem_search_buildV2` at a concrete instance. -/
theorem mem_search_buildV2_witness :
    ((['m', 'a'] : Word) ≠ []) ∧
    (['m', 'a', 'g'] ∈ search (buildV2 [['m', 'a'], ['m', 'a', 'g']]) ['m', 'a'] ↔
      (['m', 'a'] : Word) <+: ['m', 'a', 'g'] ∧
        (['m', 'a', 'g'] : Word) ∈ [(['m', 'a'] : Word), ['m', 'a', 'g']] ∧
        (['m', 'a', 'g'] : Word) ≠ []) :=
  ⟨by decide, mem_search_buildV2 [['m', 'a'], ['m', 'a', 'g']] ['m', 'a']
    ['m', 'a', 'g'] (by decide)⟩

/-- C6 (counterexample): the claim fails as stated, in two ways. For the
multi-byte word "ñ", `Insert` then `Delete` does not restore anything:
the delete panics (see C3). And from a starting state violating the
pruning invariant — a dead childless non-word node under the root — the
insert/delete round trip prunes the pre-existing dead node as well,
dropping the node count below its pre-insert value (2 before, 1 after). -/
theorem insert_delete_roundtrip_cex :
    goDelete (insertNode newNode ['ñ']) ['ñ'] = none ∧
    numNodes deadChainState = 2 ∧
    existsNode deadChainState ['a', 'b'] = false ∧
    (goDelete (insertNode deadChainState ['a', 'b']) ['a', 'b']).map numNodes =
      some 1 :=
  ⟨rfl, by decide, by decide, by decide⟩

/-- C6 (amended): for every word `w` not already present whose code
points are all single-byte (so the byte-indexed pruning loop lines up
with the rune-built stack and completes), and every starting state
satisfying the spec's pruning invariant, `Insert(w)` then `Delete(w)`
completes, leaves `Exists(w)` false, and returns the node count to its
pre-insert value. (The proof restores the exact pre-insert tree.) -/
theorem insert_delete_roundtrip (t : Node) (w : Word)
    (hp : prunedNode t = true) (he : existsNode t w = false)
    (hb : byteLen w = w.length) :
    ∃ t', goDelete (insertNode t w) w = some t' ∧
      existsNode t' w = false ∧ numNodes t' = numNodes t :=
  ⟨t, goDelete_insertNode_restore t w hp he hb, he, rfl⟩

/-- Witness for `insert_delete_roundtrip` at a concrete instance. -/
theorem insert_delete_roundtrip_witness :
    (prunedNode newNode = true ∧ existsNode newNode ['a', 'b'] = false ∧
      byteLen ['a', 'b'] = (['a', 'b'] : Word).length) ∧
    ∃ t', goDelete (insertNode newNode ['a', 'b']) ['a', 'b'] = some t' ∧
      existsNode t' ['a', 'b'] = false ∧ numNodes t' = numNodes newNode :=
  ⟨⟨by decide, by decide, by decide⟩,
    insert_delete_roundtrip newNode ['a', 'b'] (by decide) (by decide) (by decide)⟩

/-- C7: whenever two stored words are in proper-prefix relation, deleting
either one (whenever the delete completes, i.e. does not hit the
multi-byte panic of C3) leaves the other present: the pruning pass never
removes a node that is still a word or still has children. -/
theorem delete_preserves_other_word (t : Node) (u v : Word)
    (hu : existsNode t u = true) (hv : existsNode t v = true)
    (hpre : u <+: v) (hne : u ≠ v) :
    (∀ t', goDelete t v = some t' → existsNode t' u = true) ∧
    (∀ t', goDelete t u = some t' → existsNode t' v = true) := by
  constructor
  · intro t' h
    rw [goDelete_preserves_ne t v u t' h hne]
    exact hu
  · intro t' h
    rw [goDelete_preserves_ne t u v t' h (Ne.symm hne)]
    exact hv

/-- Witness for `delete_preserves_other_word` at a concrete instance:
"ma" and "mama" both stored, "ma" a proper prefix of "mama". -/
theorem delete_preserves_other_word_witness :
    (existsNode tPair ['m', 'a'] = true ∧
      existsNode tPair ['m', 'a', 'm', 'a'] = true ∧
      (['m', 'a'] : Word) <+: ['m', 'a', 'm', 'a'] ∧
      (['m', 'a'] : Word) ≠ ['m', 'a', 'm', 'a']) ∧
    ((∀ t', goDelete tPair ['m', 'a', 'm', 'a'] = some t' →
        existsNode t' ['m', 'a'] = true) ∧
     (∀ t', goDelete tPair ['m', 'a'] = some t' →
        existsNode t' ['m', 'a', 'm', 'a'] = true)) :=
  ⟨⟨by decide, by decide, ⟨['m', 'a'], by decide⟩, by decide⟩,
    delete_preserves_other_word tPair ['m', 'a'] ['m', 'a', 'm', 'a']
      (by decide) (by decide) ⟨['m', 'a'], by decide⟩ (by decide)⟩

/-- C8: inserting an already-present word is observationally a no-op. In
both trie variants a repeated insert leaves the index state literally
unchanged (so every subsequent `Exists`/`Search` outcome is identical and
no duplicate entries can appear). -/
theorem insert_idempotent_both (t : Node) (w : Word) :
    insertNode (insertNode t w) w = insertNode t w ∧
    insertV2 (insertV2 t w) w = insertV2 t w :=
  ⟨insertNode_idem t w, insertV2_idem t w⟩

/-- C9: `Search` of the second trie variant returns no results for the
empty prefix, in every index state (the guard at the top of `Search`
returns the empty slice before consulting the index at all). -/
theorem search_empty_prefix (t : Node) : search t [] = [] := by
  simp [search]

/-- The decode outcome of the request body `{"words":["abc",1]}`:
`Decode` returns a non-nil `UnmarshalTypeError` for the element `1`, yet
best-effort populates `request.Words = ["abc", ""]` (the zero value for
the failed element). -/
def typeErrOutcome : DecodeOutcome := ⟨[['a', 'b', 'c'], []], true⟩

/-- C10 (counterexample): the claim says every request whose body fails
to decode leaves the trie and the cache unchanged. False: Go's decoder
unmarshals best-effort, so the failing body `{"words":["abc",1]}` still
populates `request.Words = ["abc",""]`, and the handler — which ignores
the error — inserts "abc" and flushes the cache. Starting from
`c1AfterList` (trie without "abc", cache holding the "ca" entry): the
handler answers 200 success, "abc" appears in the trie, and the cache is
flushed empty. -/
theorem add_handler_decode_error_mutates_cex :
    typeErrOutcome.err = true ∧
    existsNode c1AfterList.trie ['a', 'b', 'c'] = false ∧
    (cacheGet c1AfterList.cache caWord).isSome = true ∧
    (addWordsHandlerV1 typeErrOutcome c1AfterList).2 =
      (200, "Words added successfully.") ∧
    existsNode (addWordsHandlerV1 typeErrOutcome c1AfterList).1.trie
      ['a', 'b', 'c'] = true ∧
    (addWordsHandlerV1 typeErrOutcome c1AfterList).1.cache = [] :=
  ⟨rfl, by decide, by decide, rfl, by decide, by decide⟩

/-- C10 (amended): `AddWordsHandlerV1` never consults the decode error:
every request — decodable or not — is answered 200 with the success
message, and the state transition depends only on what `Decode` left in
`request.Words`. In particular a body failing with a JSON syntax error
(which leaves `request.Words` nil) changes neither the trie nor the
cache, while a body failing with a type error behaves exactly as if its
decodable words had arrived cleanly (they are inserted, lowercased, and
the cache is flushed — see the counterexample). -/
theorem add_handler_ignores_decode_error (s : Sys) (d : DecodeOutcome) :
    (addWordsHandlerV1 d s).2 = (200, "Words added successfully.") ∧
    addWordsHandlerV1 d s = addWordsHandlerV1 ⟨d.words, false⟩ s ∧
    addWordsHandlerV1 ⟨[], d.err⟩ s = (s, (200, "Words added successfully.")) := by
  obtain ⟨ws, e⟩ := d
  exact ⟨rfl, rfl, rfl⟩

end Autocomplete
